import Mathlib

/-!
# Verification of the Voronoi-cells interactive visualization (`src/script.js`)

Shallow embedding of the incremental diagram-maintenance and area-encoding
pipeline of `script.js`:

* points are pairs of rationals (the script works with JS numbers; all the
  arithmetic the claims depend on — shoelace areas, linear rescaling, hue
  interpolation — is exact over ℚ);
* the Voronoi geometry itself is the external `d3.Delaunay`/`voronoi`
  primitive: it is modelled as an abstract `cellPolygon` function (a field of
  `DelaunayVoronoi`), and facts about its behaviour that a claim needs
  (e.g. a single seed owns the whole bounding rectangle) appear as hypotheses;
* `d3.polygonArea`, `d3.scaleLinear`, `d3.interpolateHsl`, `d3.min`/`d3.max`
  are embedded following the d3 sources;
* the keyed data joins (`selection.data(..., d => d.index)`) are embedded as
  exit/update/enter key computations;
* the DOM click dispatch (circle handler with `stopPropagation`, svg handler
  with the `tagName !== 'circle'` guard) and the d3 v6 listener calling
  convention (`listener.call(this, event, datum)`) are embedded explicitly.
-/

namespace VoronoiCells

/-- A 2D point, as the script's `[x, y]` arrays. -/
abbrev Point := ℚ × ℚ

/-! ## d3.polygonArea and `calculateArea` -/

/-- The loop body of `d3.polygonArea`: starting from the previous vertex
`prev` (initially `polygon[n-1]`), accumulate `a[1]*b[0] - a[0]*b[1]` over the
successive vertices. -/
def shoelace : Point → List Point → ℚ
  | _, [] => 0
  | prev, b :: rest => (prev.2 * b.1 - prev.1 * b.2) + shoelace b rest

/-- `d3.polygonArea(polygon)`: signed area, `b` initialized to the last
vertex, then one pass over the vertices; `0` for the empty polygon. -/
def polygonArea (poly : List Point) : ℚ :=
  match poly.getLast? with
  | none => 0
  | some b0 => shoelace b0 poly / 2

/-- `calculateArea(polygon)` from `script.js`: `Math.abs(d3.polygonArea(polygon))`. -/
def calculateArea (poly : List Point) : ℚ :=
  |polygonArea poly|

/-! ## Colors: `d3.interpolateHsl` and the linear color scale -/

/-- An HSL color (hue in degrees, saturation and lightness in percent). -/
structure HSL where
  hue : ℚ
  sat : ℚ
  light : ℚ
  deriving DecidableEq

/-- `d3.interpolateHsl("hsl(0, 60%, 70%)", "hsl(120, 60%, 70%)")`: the hue
difference is 120 ≤ 180, so d3 interpolates the hue linearly from 0 to 120;
saturation and lightness are constant. -/
def colorInterpolator (t : ℚ) : HSL :=
  ⟨120 * t, 60, 70⟩

/-- `d3.scaleLinear().range([0, 1])` with domain `[d0, d1]` applied to `x`:
`(x - d0) / (d1 - d0)`, and d3's `normalize` yields the constant `0.5` when
the domain is degenerate.  No clamping (the script never calls `.clamp`). -/
def colorScale (d0 d1 x : ℚ) : ℚ :=
  if d1 - d0 = 0 then 1 / 2 else (x - d0) / (d1 - d0)

/-- The domain chosen by `drawVoronoi`: `[minArea, maxArea]` when
`minArea < maxArea`, otherwise `[minArea, minArea + 1]`. -/
def colorDomain (minA maxA : ℚ) : ℚ × ℚ :=
  if minA < maxA then (minA, maxA) else (minA, minA + 1)

/-- The argument the fill callback passes to `colorInterpolator`:
`minArea === maxArea ? 1 : colorScale(cellAreas[i])`. -/
def fillParam (minA maxA area : ℚ) : ℚ :=
  if minA = maxA then 1 else colorScale (colorDomain minA maxA).1 (colorDomain minA maxA).2 area

/-! ## d3.min / d3.max -/

/-- `d3.min` on a list of numbers: `undefined` (`none`) on the empty list. -/
def listMin : List ℚ → Option ℚ
  | [] => none
  | a :: l => some (l.foldl min a)

/-- `d3.max` on a list of numbers: `undefined` (`none`) on the empty list. -/
def listMax : List ℚ → Option ℚ
  | [] => none
  | a :: l => some (l.foldl max a)

/-! ## The external Voronoi primitive -/

/-- The external `d3.Delaunay.from(points).voronoi([0, 0, width, height])`
primitive, treated as trusted: `cellPolygon points width height i` is the
(closed) cell polygon of seed `i`, or `none` when the cell is degenerate. -/
structure DelaunayVoronoi where
  cellPolygon : List Point → ℚ → ℚ → ℕ → Option (List Point)

/-- Area assigned to one cell by `drawVoronoi`'s `cellAreas` map:
`calculateArea` of the polygon, `0` for a degenerate (`null`) cell. -/
def areaOfCell : Option (List Point) → ℚ
  | some poly => calculateArea poly
  | none => 0

/-- `cellAreas` from `drawVoronoi`: one area per point, in point order. -/
def cellAreas (vor : DelaunayVoronoi) (points : List Point) (width height : ℚ) : List ℚ :=
  (List.range points.length).map fun i => areaOfCell (vor.cellPolygon points width height i)

/-! ## The rendered state produced by `drawVoronoi` -/

/-- One rendered Voronoi cell `<path>`: its data-join key (`d.index`), its
path geometry (`voronoi.renderCell(d.index)`, `none` when degenerate) and its
fill color. -/
structure CellRender where
  index : ℕ
  cellPath : Option (List Point)
  fill : HSL
  deriving DecidableEq

/-- One rendered point marker `<circle>`: its data-join key and center. -/
structure CircleRender where
  index : ℕ
  cx : ℚ
  cy : ℚ
  deriving DecidableEq

/-- The rendered surface after a `drawVoronoi` call. -/
structure RenderState where
  cells : List CellRender
  circles : List CircleRender
  deriving DecidableEq

/-- `drawVoronoi()` as a function of the current `points` array (the rendered
attributes are fully determined by `points`; the data join only decides which
DOM nodes are reused).  The `i` in the fill callback `(d, i) =>` is the
selection index, which for these index-keyed, in-order joins equals `d.index`. -/
def drawVoronoi (vor : DelaunayVoronoi) (width height : ℚ) (points : List Point) :
    RenderState :=
  if points.length = 0 then ⟨[], []⟩
  else
    let areas := cellAreas vor points width height
    let minA := (listMin areas).getD 0
    let maxA := (listMax areas).getD 0
    { cells := (List.range points.length).map fun i =>
        { index := i
          cellPath := vor.cellPolygon points width height i
          fill := colorInterpolator (fillParam minA maxA (areas.getD i 0)) }
      circles := points.enum.map fun ip => ⟨ip.1, ip.2.1, ip.2.2⟩ }

/-! ## The keyed data joins -/

/-- The data-join keys of a draw: `pointsWithIndex` is keyed by `d.index`,
i.e. `0, 1, ..., points.length - 1`. -/
def dataKeys (points : List Point) : List ℕ :=
  List.range points.length

/-- Keys of the exit selection: previously rendered keys absent from the new
data (their elements are `.remove()`d). -/
def exitKeys (prevKeys newKeys : List ℕ) : List ℕ :=
  prevKeys.filter fun k => decide (k ∉ newKeys)

/-- Keys of the update selection: previously rendered keys still present. -/
def updateKeys (prevKeys newKeys : List ℕ) : List ℕ :=
  prevKeys.filter fun k => decide (k ∈ newKeys)

/-- Keys of the enter selection: new keys with no previously rendered element. -/
def enterKeys (prevKeys newKeys : List ℕ) : List ℕ :=
  newKeys.filter fun k => decide (k ∉ prevKeys)

/-- One `drawVoronoi()` call seen as a step on the rendered surface: given the
keys rendered by the previous call, return the keys whose elements are removed
by this call together with the new rendered state.  The empty-points branch
removes every rendered path and circle and returns before any Voronoi
computation. -/
def drawVoronoiStep (vor : DelaunayVoronoi) (width height : ℚ) (prevKeys : List ℕ)
    (points : List Point) : List ℕ × RenderState :=
  if points.length = 0 then (prevKeys, ⟨[], []⟩)
  else (exitKeys prevKeys (dataKeys points), drawVoronoi vor width height points)

/-! ## The point store mutations and click dispatch -/

/-- `points.push([x, y])` in the svg click handler. -/
def pushPoint (points : List Point) (p : Point) : List Point :=
  points ++ [p]

/-- `points.splice(d.index, 1)` in the circle click handler. -/
def splicePoint (points : List Point) (i : ℕ) : List Point :=
  points.eraseIdx i

/-- A click event as the handlers observe it: whether `event.target` is a
`<circle>`, the datum index bound to that circle, and the pointer position. -/
structure ClickEvent where
  targetIsCircle : Bool
  datumIndex : ℕ
  px : ℚ
  py : ℚ

/-- The svg `click` handler: adds a point at the pointer only when
`event.target.tagName !== 'circle'`. -/
def svgClickHandler (e : ClickEvent) (points : List Point) : List Point :=
  if e.targetIsCircle then points else pushPoint points (e.px, e.py)

/-- The circle `click` handler: `event.stopPropagation()` (the returned `true`
records that propagation is stopped) then `points.splice(d.index, 1)`. -/
def circleClickHandler (idx : ℕ) (points : List Point) : List Point × Bool :=
  (splicePoint points idx, true)

/-- DOM dispatch of one click: a click whose target is a circle runs the
circle handler first (bubbling, target first); the svg handler then runs only
if propagation was not stopped.  A click elsewhere runs just the svg handler. -/
def dispatchClick (e : ClickEvent) (points : List Point) : List Point :=
  if e.targetIsCircle then
    let r := circleClickHandler e.datumIndex points
    if r.2 then r.1 else svgClickHandler e r.1
  else svgClickHandler e points

/-! ## The export button: namespace injection and XML declaration

The handler works on the serialized string.  Regex `^<svg[^>]+PAT` is: the
string starts with `<svg`, then one or more characters none of which is `>`,
then `PAT`.  `source.replace(/^<svg/, INS)` replaces a leading `<svg` by
`INS`. -/

/-- Does `pat` occur after at least one leading non-`>` character?  This is
`[^>]+PAT` applied to the part of the source after the leading `<svg`. -/
def scanPat (pat : List Char) : List Char → Bool
  | [] => false
  | c :: rest => if c = '>' then false else (pat.isPrefixOf rest || scanPat pat rest)

/-- The opening characters `<svg` of the root tag. -/
def svgTagOpen : List Char := '<' :: 's' :: 'v' :: 'g' :: []

/-- The pattern of the first regex: `xmlns="http://www.w3.org/2000/svg"`. -/
def svgNsPat : List Char := "xmlns=\"http://www.w3.org/2000/svg\"".data

/-- The pattern of the second regex: `"http://www.w3.org/1999/xlink"` (the
quoted xlink namespace URL). -/
def xlinkPat : List Char := "\"http://www.w3.org/1999/xlink\"".data

/-- The xlink namespace declaration `xmlns:xlink="http://www.w3.org/1999/xlink"`. -/
def xlinkNsDecl : List Char := "xmlns:xlink=\"http://www.w3.org/1999/xlink\"".data

/-- `source.match(/^<svg[^>]+xmlns="http:\/\/www.w3.org\/2000\/svg"/)` as a Bool. -/
def matchSvgNsRe (s : List Char) : Bool :=
  svgTagOpen.isPrefixOf s && scanPat svgNsPat (s.drop 4)

/-- `source.match(/^<svg[^>]+"http:\/\/www.w3.org\/1999\/xlink"/)` as a Bool. -/
def matchXlinkRe (s : List Char) : Bool :=
  svgTagOpen.isPrefixOf s && scanPat xlinkPat (s.drop 4)

/-- `source.replace(/^<svg/, ins)`: replace a leading `<svg` by `ins`. -/
def replaceSvgOpen (ins s : List Char) : List Char :=
  if svgTagOpen.isPrefixOf s then ins ++ s.drop 4 else s

/-- First injection step: add `xmlns="http://www.w3.org/2000/svg"` to the root
tag unless the first regex already matches. -/
def addSvgNs (s : List Char) : List Char :=
  if matchSvgNsRe s then s else replaceSvgOpen (svgTagOpen ++ ' ' :: svgNsPat) s

/-- Second injection step: add `xmlns:xlink="..."` unless the second regex
matches the (possibly already rewritten) source. -/
def addXlinkNs (s : List Char) : List Char :=
  if matchXlinkRe s then s else replaceSvgOpen (svgTagOpen ++ ' ' :: xlinkNsDecl) s

/-- The XML declaration prepended by the handler. -/
def xmlDecl : List Char := "<?xml version=\"1.0\" standalone=\"no\"?>\r\n".data

/-- The whole export transformation applied to the serialized source. -/
def exportTransform (s : List Char) : List Char :=
  xmlDecl ++ addXlinkNs (addSvgNs s)

/-- Substring occurrence test. -/
def containsSeq (pat : List Char) : List Char → Bool
  | [] => pat.isEmpty
  | c :: rest => pat.isPrefixOf (c :: rest) || containsSeq pat rest

/-! ## The d3 v6 listener calling convention and the mouseover handler

`script.js` targets d3 v6+ (it uses `d3.pointer(event)` and event-first
listener signatures).  In d3 v6/v7 a listener registered with `.on` is invoked
as `listener.call(this, event, this.__data__)` — with exactly two arguments.
The mouseover handler is declared `function(event, d, i)`, so inside it `i`
is the third argument of a call that only passed two. -/

/-- A JavaScript value, as far as the tooltip computation needs one. -/
inductive JSVal where
  | undef : JSVal
  | num : ℚ → JSVal
  deriving DecidableEq

/-- Fetch the `k`-th declared parameter from the actual argument list: a JS
function's extra parameters are bound to `undefined`. -/
def jsParam (args : List JSVal) (k : ℕ) : JSVal :=
  args.getD k JSVal.undef

/-- `arr[v]` on a JS array of numbers: a valid integer index reads the entry,
anything else (including `undefined`) yields `undefined`. -/
def jsIndexRead (arr : List ℚ) : JSVal → JSVal
  | JSVal.undef => JSVal.undef
  | JSVal.num q =>
      if q.den = 1 ∧ 0 ≤ q.num ∧ q.num.toNat < arr.length
      then JSVal.num (arr.getD q.num.toNat 0)
      else JSVal.undef

/-- `v.toFixed(2)`: on a number, the value displayed (rounded to 2 decimal
places); on `undefined`, a thrown `TypeError`. -/
def jsToFixed2 : JSVal → Except String ℚ
  | JSVal.undef => Except.error "TypeError: cannot read toFixed of undefined"
  | JSVal.num q => Except.ok ((Rat.floor (q * 100 + 1 / 2) : ℚ) / 100)

/-- Body of the mouseover handler `function(event, d, i)`: computes
`cellAreas[i].toFixed(2)` (the area the tooltip would display) from the
declared third parameter `i`. -/
def mouseoverHandler (areas : List ℚ) (args : List JSVal) : Except String ℚ :=
  jsToFixed2 (jsIndexRead areas (jsParam args 2))

/-- d3 v6 event dispatch: the registered listener is invoked with exactly
`(event, datum)`. -/
def d3v6CallListener {α : Type} (listener : List JSVal → α) (event datum : JSVal) : α :=
  listener [event, datum]

/-- The area the tooltip shows (or the error thrown) when a cell of a diagram
with areas `areas` is hovered, under the d3 v6 dispatch. -/
def mouseoverShownArea (areas : List ℚ) (event datum : JSVal) : Except String ℚ :=
  d3v6CallListener (mouseoverHandler areas) event datum

/-! ## Concrete primitives used by witnesses -/

/-- The full bounding rectangle as a closed polygon, the cell d3-delaunay
produces for a single seed inside bounds `[0, 0, width, height]`. -/
def rectPoly (width height : ℚ) : List Point :=
  [(0, 0), (width, 0), (width, height), (0, height), (0, 0)]

/-- A concrete instance of the external primitive in which every cell is the
full bounding rectangle (the d3-delaunay behaviour for a single seed, used to
instantiate hypotheses in witnesses). -/
def rectVoronoi : DelaunayVoronoi :=
  ⟨fun _ width height _ => some (rectPoly width height)⟩

/-- A concrete instance of the external primitive in which every cell is
degenerate (`null`). -/
def degenerateVoronoi : DelaunayVoronoi :=
  ⟨fun _ _ _ _ => none⟩

/-! ## Helper lemmas about fold-based min/max (`d3.min` / `d3.max`) -/

theorem foldl_min_le_init (l : List ℚ) (a : ℚ) : l.foldl min a ≤ a := by
  induction l generalizing a with
  | nil => exact le_refl a
  | cons b t ih => exact le_trans (ih (min a b)) (min_le_left a b)

theorem foldl_min_le_mem (l : List ℚ) (a x : ℚ) (hx : x ∈ l) : l.foldl min a ≤ x := by
  induction l generalizing a with
  | nil => cases hx
  | cons b t ih =>
    rcases List.mem_cons.mp hx with h | h
    · exact le_trans (foldl_min_le_init t (min a b)) (h ▸ min_le_right a b)
    · exact ih (min a b) h

theorem le_foldl_max_init (l : List ℚ) (a : ℚ) : a ≤ l.foldl max a := by
  induction l generalizing a with
  | nil => exact le_refl a
  | cons b t ih => exact le_trans (le_max_left a b) (ih (max a b))

theorem le_foldl_max_mem (l : List ℚ) (a x : ℚ) (hx : x ∈ l) : x ≤ l.foldl max a := by
  induction l generalizing a with
  | nil => cases hx
  | cons b t ih =>
    rcases List.mem_cons.mp hx with h | h
    · exact le_trans (h ▸ le_max_right a b) (le_foldl_max_init t (max a b))
    · exact ih (max a b) h

theorem listMin_le_of_mem (l : List ℚ) (x : ℚ) (hx : x ∈ l) : (listMin l).getD 0 ≤ x := by
  cases l with
  | nil => cases hx
  | cons a t =>
    rw [listMin, Option.getD_some]
    rcases List.mem_cons.mp hx with h | h
    · exact h ▸ foldl_min_le_init t a
    · exact foldl_min_le_mem t a x h

theorem le_listMax_of_mem (l : List ℚ) (x : ℚ) (hx : x ∈ l) : x ≤ (listMax l).getD 0 := by
  cases l with
  | nil => cases hx
  | cons a t =>
    rw [listMax, Option.getD_some]
    rcases List.mem_cons.mp hx with h | h
    · exact h ▸ le_foldl_max_init t a
    · exact le_foldl_max_mem t a x h

theorem foldl_min_of_all_eq (l : List ℚ) (a : ℚ) (h : ∀ x ∈ l, x = a) :
    l.foldl min a = a := by
  induction l with
  | nil => rfl
  | cons b t ih =>
    have hb : b = a := h b (List.mem_cons_self b t)
    rw [List.foldl_cons, hb, min_self]
    exact ih fun x hx => h x (List.mem_cons_of_mem b hx)

theorem foldl_max_of_all_eq (l : List ℚ) (a : ℚ) (h : ∀ x ∈ l, x = a) :
    l.foldl max a = a := by
  induction l with
  | nil => rfl
  | cons b t ih =>
    have hb : b = a := h b (List.mem_cons_self b t)
    rw [List.foldl_cons, hb, max_self]
    exact ih fun x hx => h x (List.mem_cons_of_mem b hx)

/-! ## Helper lemmas about `cellAreas` -/

theorem cellAreas_length (vor : DelaunayVoronoi) (points : List Point) (width height : ℚ) :
    (cellAreas vor points width height).length = points.length := by
  simp [cellAreas]

theorem cellAreas_getD (vor : DelaunayVoronoi) (points : List Point) (width height : ℚ)
    (i : ℕ) (hi : i < points.length) (d : ℚ) :
    (cellAreas vor points width height).getD i d
      = areaOfCell (vor.cellPolygon points width height i) := by
  rw [cellAreas, List.getD_eq_getElem?_getD, List.getElem?_map, List.getElem?_range hi]
  rfl

theorem getD_mem_of_lt (l : List ℚ) (i : ℕ) (hi : i < l.length) (d : ℚ) :
    l.getD i d ∈ l := by
  rw [List.getD_eq_getElem?_getD, List.getElem?_eq_getElem hi, Option.getD_some]
  exact List.getElem_mem hi

/-! ## The area of the full-rectangle cell -/

theorem polygonArea_rectPoly (width height : ℚ) :
    polygonArea (rectPoly width height) = -(width * height) := by
  have hlast : (rectPoly width height).getLast? = some (0, 0) := rfl
  rw [polygonArea, hlast, rectPoly]
  show ((0 : ℚ) * 0 - 0 * 0 + ((0 : ℚ) * width - 0 * 0
    + ((0 : ℚ) * width - width * height + (height * 0 - width * height
    + (height * 0 - 0 * 0 + 0))))) / 2 = -(width * height)
  ring

theorem calculateArea_rectPoly (width height : ℚ) (hw : 0 ≤ width) (hh : 0 ≤ height) :
    calculateArea (rectPoly width height) = width * height := by
  rw [calculateArea, polygonArea_rectPoly, abs_neg, abs_of_nonneg (mul_nonneg hw hh)]

/-! ## Claim theorems -/

/-- C1: for a one-point set whose (externally computed) cell is the full
bounding rectangle, `drawVoronoi` renders exactly one region, its polygon is
the full rectangle, its computed area is `width * height` (480000 for the
800×600 bounds, see the witness), and its fill is the maximum-area endpoint
`colorInterpolator 1 = hsl(120, 60%, 70%)`. -/
theorem C1_single_point_full_rectangle (vor : DelaunayVoronoi) (p : Point)
    (width height : ℚ) (hw : 0 ≤ width) (hh : 0 ≤ height)
    (hcell : vor.cellPolygon [p] width height 0 = some (rectPoly width height)) :
    (drawVoronoi vor width height [p]).cells.length = 1 ∧
    cellAreas vor [p] width height = [width * height] ∧
    (drawVoronoi vor width height [p]).cells
      = [⟨0, some (rectPoly width height), colorInterpolator 1⟩] ∧
    colorInterpolator 1 = ⟨120, 60, 70⟩ := by
  have hareas : cellAreas vor [p] width height = [width * height] := by
    rw [cellAreas]
    show [areaOfCell (vor.cellPolygon [p] width height 0)] = [width * height]
    rw [hcell]
    show [calculateArea (rectPoly width height)] = [width * height]
    rw [calculateArea_rectPoly width height hw hh]
  have hcells : (drawVoronoi vor width height [p]).cells
      = [⟨0, some (rectPoly width height), colorInterpolator 1⟩] := by
    rw [drawVoronoi, if_neg (by simp : ¬([p] : List Point).length = 0)]
    simp only [hareas, listMin, listMax, List.foldl_nil, Option.getD_some]
    show [(⟨0, vor.cellPolygon [p] width height 0,
      colorInterpolator (fillParam (width * height) (width * height)
        (([width * height] : List ℚ).getD 0 0))⟩ : CellRender)] = _
    rw [hcell, fillParam, if_pos rfl]
  refine ⟨by rw [hcells]; rfl, hareas, hcells, ?_⟩
  rw [colorInterpolator]
  norm_num

/-- C1 witness: the concrete scenario `points = [(10, 10)]` in an 800×600
bounds, with the single-cell primitive: one region of area 480000, filled at
the hue-120 endpoint. -/
theorem C1_witness :
    cellAreas rectVoronoi [((10 : ℚ), 10)] 800 600 = [480000] ∧
    (drawVoronoi rectVoronoi 800 600 [((10 : ℚ), 10)]).cells
      = [⟨0, some (rectPoly 800 600), colorInterpolator 1⟩] ∧
    colorInterpolator 1 = ⟨120, 60, 70⟩ := by
  have h := C1_single_point_full_rectangle rectVoronoi (10, 10) 800 600
    (by norm_num) (by norm_num) rfl
  exact ⟨h.2.1.trans (by norm_num), h.2.2.1, h.2.2.2⟩

/-- C2: when every computed cell area is equal (nonempty point set), the
min and max of the areas coincide, the scaled value is forced to 1 for every
region, and every rendered region receives the identical maximum-area color
`colorInterpolator 1`. -/
theorem C2_equal_areas_identical_color (vor : DelaunayVoronoi) (width height : ℚ)
    (points : List Point) (hne : points ≠ [])
    (heq : ∀ x ∈ cellAreas vor points width height,
           ∀ y ∈ cellAreas vor points width height, x = y) :
    (listMin (cellAreas vor points width height)).getD 0
      = (listMax (cellAreas vor points width height)).getD 0 ∧
    (∀ a : ℚ, fillParam ((listMin (cellAreas vor points width height)).getD 0)
        ((listMax (cellAreas vor points width height)).getD 0) a = 1) ∧
    ∀ c ∈ (drawVoronoi vor width height points).cells,
      c.fill = colorInterpolator 1 := by
  have hlen : ¬points.length = 0 := fun h0 => hne (List.length_eq_zero.mp h0)
  obtain ⟨a, t, hat⟩ : ∃ a t, cellAreas vor points width height = a :: t := by
    cases hcase : cellAreas vor points width height with
    | nil =>
      exfalso
      apply hlen
      rw [← cellAreas_length vor points width height, hcase]
      rfl
    | cons a t => exact ⟨a, t, rfl⟩
  have hall : ∀ x ∈ t, x = a := fun x hx =>
    heq x (by rw [hat]; exact List.mem_cons_of_mem a hx)
      a (by rw [hat]; exact List.mem_cons_self a t)
  have hminmax : (listMin (cellAreas vor points width height)).getD 0
      = (listMax (cellAreas vor points width height)).getD 0 := by
    rw [hat, listMin, listMax, Option.getD_some, Option.getD_some,
      foldl_min_of_all_eq t a hall, foldl_max_of_all_eq t a hall]
  have hfill : ∀ a' : ℚ, fillParam ((listMin (cellAreas vor points width height)).getD 0)
      ((listMax (cellAreas vor points width height)).getD 0) a' = 1 := fun a' => by
    rw [fillParam, if_pos hminmax]
  refine ⟨hminmax, hfill, ?_⟩
  intro c hc
  rw [drawVoronoi, if_neg hlen] at hc
  simp only [List.mem_map, List.mem_range] at hc
  obtain ⟨i, hi, rfl⟩ := hc
  show colorInterpolator _ = colorInterpolator 1
  rw [hfill]

/-- C2 witness: two seeds whose cells are both the full rectangle (equal
areas): the min and max coincide and both regions are filled identically at
the maximum-area endpoint. -/
theorem C2_witness :
    (listMin (cellAreas rectVoronoi [((0 : ℚ), 0), (5, 5)] 800 600)).getD 0
      = (listMax (cellAreas rectVoronoi [((0 : ℚ), 0), (5, 5)] 800 600)).getD 0 ∧
    ∀ c ∈ (drawVoronoi rectVoronoi 800 600 [((0 : ℚ), 0), (5, 5)]).cells,
      c.fill = colorInterpolator 1 := by
  have hareas : cellAreas rectVoronoi [((0 : ℚ), 0), (5, 5)] 800 600
      = [480000, 480000] := by
    show [calculateArea (rectPoly 800 600), calculateArea (rectPoly 800 600)] = _
    rw [calculateArea_rectPoly 800 600 (by norm_num) (by norm_num)]
    norm_num
  have h := C2_equal_areas_identical_color rectVoronoi 800 600
    [((0 : ℚ), 0), (5, 5)] (by simp)
    (by rw [hareas]; intro x hx y hy; simp at hx hy; rw [hx, hy])
  exact ⟨h.1, h.2.2⟩

/-- Key lemma for C3: the value the fill callback hands to the interpolator is
in `[0, 1]` whenever the area is one of the values the scale was fit from. -/
theorem fillParam_mem_unitInterval (areas : List ℚ) (a : ℚ) (ha : a ∈ areas) :
    0 ≤ fillParam ((listMin areas).getD 0) ((listMax areas).getD 0) a ∧
    fillParam ((listMin areas).getD 0) ((listMax areas).getD 0) a ≤ 1 := by
  have hmin : (listMin areas).getD 0 ≤ a := listMin_le_of_mem areas a ha
  have hmax : a ≤ (listMax areas).getD 0 := le_listMax_of_mem areas a ha
  by_cases hEq : (listMin areas).getD 0 = (listMax areas).getD 0
  · rw [fillParam, if_pos hEq]
    norm_num
  · have hlt : (listMin areas).getD 0 < (listMax areas).getD 0 :=
      lt_of_le_of_ne (le_trans hmin hmax) hEq
    rw [fillParam, if_neg hEq, colorDomain, if_pos hlt]
    show 0 ≤ colorScale ((listMin areas).getD 0) ((listMax areas).getD 0) a ∧
      colorScale ((listMin areas).getD 0) ((listMax areas).getD 0) a ≤ 1
    rw [colorScale, if_neg (sub_pos.mpr hlt).ne']
    exact ⟨div_nonneg (sub_nonneg.mpr hmin) (sub_pos.mpr hlt).le,
      (div_le_one (sub_pos.mpr hlt)).mpr (sub_le_sub_right hmax _)⟩

/-- C3: the scaled value passed to the hue interpolation for each region lies
in `[0, 1]`: the scale is fit from the same areas being colored, so the value
for the `i`-th area is in range, and every rendered fill is the interpolator
applied to some `t ∈ [0, 1]`. -/
theorem C3_scaled_value_in_unit_interval (vor : DelaunayVoronoi) (width height : ℚ)
    (points : List Point) (i : ℕ) (hi : i < points.length) :
    (0 ≤ fillParam ((listMin (cellAreas vor points width height)).getD 0)
        ((listMax (cellAreas vor points width height)).getD 0)
        ((cellAreas vor points width height).getD i 0) ∧
      fillParam ((listMin (cellAreas vor points width height)).getD 0)
        ((listMax (cellAreas vor points width height)).getD 0)
        ((cellAreas vor points width height).getD i 0) ≤ 1) ∧
    ∀ c ∈ (drawVoronoi vor width height points).cells,
      ∃ t, 0 ≤ t ∧ t ≤ 1 ∧ c.fill = colorInterpolator t := by
  have hmemi : (cellAreas vor points width height).getD i 0
      ∈ cellAreas vor points width height :=
    getD_mem_of_lt _ i (by rw [cellAreas_length]; exact hi) 0
  refine ⟨fillParam_mem_unitInterval _ _ hmemi, ?_⟩
  intro c hc
  rw [drawVoronoi, if_neg (by omega : ¬points.length = 0)] at hc
  simp only [List.mem_map, List.mem_range] at hc
  obtain ⟨j, hj, rfl⟩ := hc
  have hmemj : (cellAreas vor points width height).getD j 0
      ∈ cellAreas vor points width height :=
    getD_mem_of_lt _ j (by rw [cellAreas_length]; exact hj) 0
  exact ⟨_, (fillParam_mem_unitInterval _ _ hmemj).1,
    (fillParam_mem_unitInterval _ _ hmemj).2, rfl⟩

/-- C3 witness: the concrete one-point scenario; the scaled value fed to the
interpolator is in `[0, 1]`. -/
theorem C3_witness :
    0 ≤ fillParam ((listMin (cellAreas rectVoronoi [((10 : ℚ), 10)] 800 600)).getD 0)
        ((listMax (cellAreas rectVoronoi [((10 : ℚ), 10)] 800 600)).getD 0)
        ((cellAreas rectVoronoi [((10 : ℚ), 10)] 800 600).getD 0 0) ∧
    fillParam ((listMin (cellAreas rectVoronoi [((10 : ℚ), 10)] 800 600)).getD 0)
        ((listMax (cellAreas rectVoronoi [((10 : ℚ), 10)] 800 600)).getD 0)
        ((cellAreas rectVoronoi [((10 : ℚ), 10)] 800 600).getD 0 0) ≤ 1 := by
  have h := C3_scaled_value_in_unit_interval rectVoronoi 800 600
    [((10 : ℚ), 10)] 0 (by decide)
  exact h.1

/-- C5: a point whose cell polygon cannot be derived is assigned area 0, the
area list still has one entry per point (so that 0 participates in the
min/max scale: the minimum is ≤ 0 and the maximum is ≥ 0), and `drawVoronoi`
still renders one cell entry and one marker per point — no error escapes. -/
theorem C5_degenerate_cell_area_zero (vor : DelaunayVoronoi) (width height : ℚ)
    (points : List Point) (j : ℕ) (hj : j < points.length)
    (hnone : vor.cellPolygon points width height j = none) :
    (cellAreas vor points width height).getD j 1 = 0 ∧
    (cellAreas vor points width height).length = points.length ∧
    (∃ m, listMin (cellAreas vor points width height) = some m ∧ m ≤ 0) ∧
    (∃ M, listMax (cellAreas vor points width height) = some M ∧ 0 ≤ M) ∧
    (drawVoronoi vor width height points).cells.length = points.length ∧
    (drawVoronoi vor width height points).circles.length = points.length := by
  have hzero : (cellAreas vor points width height).getD j 1 = 0 := by
    rw [cellAreas_getD vor points width height j hj 1, hnone]
    rfl
  have hmem : (0 : ℚ) ∈ cellAreas vor points width height := by
    rw [← hzero]
    exact getD_mem_of_lt _ j (by rw [cellAreas_length]; exact hj) 1
  obtain ⟨a, t, hat⟩ : ∃ a t, cellAreas vor points width height = a :: t := by
    cases hcase : cellAreas vor points width height with
    | nil => rw [hcase] at hmem; cases hmem
    | cons a t => exact ⟨a, t, rfl⟩
  have hmin : (listMin (cellAreas vor points width height)).getD 0 ≤ 0 :=
    listMin_le_of_mem _ 0 hmem
  have hmax : (0 : ℚ) ≤ (listMax (cellAreas vor points width height)).getD 0 :=
    le_listMax_of_mem _ 0 hmem
  refine ⟨hzero, cellAreas_length vor points width height,
    ⟨t.foldl min a, by rw [hat]; rfl, by rw [hat, listMin, Option.getD_some] at hmin; exact hmin⟩,
    ⟨t.foldl max a, by rw [hat]; rfl, by rw [hat, listMax, Option.getD_some] at hmax; exact hmax⟩,
    ?_, ?_⟩ <;>
    rw [drawVoronoi, if_neg (by omega : ¬points.length = 0)] <;>
    simp

/-- C5 witness: two coincident-like points under the all-degenerate primitive:
the first entry has area 0, the scale still sees two entries, and two cell
entries and two markers are rendered. -/
theorem C5_witness :
    (cellAreas degenerateVoronoi [((1 : ℚ), 1), (1, 1)] 800 600).getD 0 1 = 0 ∧
    (cellAreas degenerateVoronoi [((1 : ℚ), 1), (1, 1)] 800 600).length = 2 ∧
    (drawVoronoi degenerateVoronoi 800 600 [((1 : ℚ), 1), (1, 1)]).cells.length = 2 := by
  have h := C5_degenerate_cell_area_zero degenerateVoronoi 800 600
    [((1 : ℚ), 1), (1, 1)] 0 (by decide) rfl
  exact ⟨h.1, h.2.1, h.2.2.2.2.1⟩

/-- C6: with an empty point set, one recomputation step removes every
previously rendered key, renders zero regions and zero markers, and computes
no partition: the result does not depend on the Voronoi primitive at all
(the handler returns before `d3.Delaunay.from`). -/
theorem C6_empty_points_clears (vor vor2 : DelaunayVoronoi) (width height : ℚ)
    (prevKeys : List ℕ) :
    drawVoronoiStep vor width height prevKeys [] = (prevKeys, ⟨[], []⟩) ∧
    (drawVoronoi vor width height []).cells = [] ∧
    (drawVoronoi vor width height []).circles = [] ∧
    drawVoronoi vor width height [] = drawVoronoi vor2 width height [] :=
  ⟨rfl, rfl, rfl, rfl⟩

/-- C7: a click originating on a rendered circle runs the circle handler,
which stops propagation, so the svg add-point handler never runs: the store
afterwards is exactly the previous store with the clicked entry spliced out —
one entry shorter, a sublist of the old store (nothing added). -/
theorem C7_circle_click_only_removes (e : ClickEvent) (points : List Point)
    (htarget : e.targetIsCircle = true) (hidx : e.datumIndex < points.length) :
    dispatchClick e points = splicePoint points e.datumIndex ∧
    dispatchClick e points
      = points.take e.datumIndex ++ points.drop (e.datumIndex + 1) ∧
    (dispatchClick e points).length = points.length - 1 ∧
    (dispatchClick e points).Sublist points := by
  have hd : dispatchClick e points = splicePoint points e.datumIndex := by
    rw [dispatchClick, if_pos htarget]
    rfl
  refine ⟨hd, ?_, ?_, ?_⟩
  · rw [hd, splicePoint, List.eraseIdx_eq_take_drop_succ]
  · rw [hd, splicePoint, List.length_eraseIdx, if_pos hidx]
  · rw [hd]
    exact List.eraseIdx_sublist points e.datumIndex

/-- C7 witness: clicking the circle of index 0 in a two-point store removes
exactly that point. -/
theorem C7_witness :
    dispatchClick ⟨true, 0, 5, 5⟩ [((1 : ℚ), 1), (2, 2)]
      = splicePoint [((1 : ℚ), 1), (2, 2)] 0 ∧
    (dispatchClick ⟨true, 0, 5, 5⟩ [((1 : ℚ), 1), (2, 2)]).length = 2 - 1 := by
  have h := C7_circle_click_only_removes ⟨true, 0, 5, 5⟩ [((1 : ℚ), 1), (2, 2)]
    rfl (by decide)
  exact ⟨h.1, h.2.2.1⟩

theorem eraseIdx_append_length (l : List Point) (p : Point) :
    (l ++ [p]).eraseIdx l.length = l := by
  induction l with
  | nil => rfl
  | cons a t ih =>
    show a :: ((t ++ [p]).eraseIdx t.length) = a :: t
    rw [ih]

/-- C8: pushing a point and immediately splicing it out at its render
identity (the last index) restores the point store exactly, and recomputation
(a pure function of the store) yields the identical rendered state. -/
theorem C8_add_then_remove_roundtrip (vor : DelaunayVoronoi) (width height : ℚ)
    (points : List Point) (p : Point) :
    splicePoint (pushPoint points p) points.length = points ∧
    drawVoronoi vor width height (splicePoint (pushPoint points p) points.length)
      = drawVoronoi vor width height points := by
  have h := eraseIdx_append_length points p
  exact ⟨h, by rw [splicePoint, pushPoint, h]⟩

/-- C10: `points.push` appends, so every existing point keeps its index
identity, the exit selection of the following recomputation is empty, every
previous key is in the update selection, exactly the one new key enters, and
the rendered marker list is the previous one extended by the one new marker. -/
theorem C10_add_point_preserves_identities (vor : DelaunayVoronoi)
    (width height : ℚ) (points : List Point) (p : Point) :
    (∀ i, i < points.length → (pushPoint points p)[i]? = points[i]?) ∧
    (pushPoint points p)[points.length]? = some p ∧
    exitKeys (dataKeys points) (dataKeys (pushPoint points p)) = [] ∧
    updateKeys (dataKeys points) (dataKeys (pushPoint points p)) = dataKeys points ∧
    enterKeys (dataKeys points) (dataKeys (pushPoint points p)) = [points.length] ∧
    (drawVoronoi vor width height (pushPoint points p)).circles
      = (drawVoronoi vor width height points).circles
        ++ [⟨points.length, p.1, p.2⟩] := by
  have hdk : dataKeys (pushPoint points p) = List.range (points.length + 1) := by
    rw [dataKeys, pushPoint]
    simp
  refine ⟨?_, ?_, ?_, ?_, ?_, ?_⟩
  · intro i hi
    rw [pushPoint, List.getElem?_append, if_pos hi]
  · rw [pushPoint, List.getElem?_append, if_neg (lt_irrefl _)]
    simp
  · rw [exitKeys, hdk, dataKeys, List.filter_eq_nil_iff]
    intro k hk
    simp only [List.mem_range] at hk
    simp [List.mem_range]
    omega
  · rw [updateKeys, hdk, dataKeys, List.filter_eq_self]
    intro k hk
    simp only [List.mem_range] at hk
    simp [List.mem_range]
    omega
  · rw [enterKeys, hdk, dataKeys, List.range_succ, List.filter_append]
    have h1 : (List.range points.length).filter
        (fun k => decide (k ∉ List.range points.length)) = [] := by
      rw [List.filter_eq_nil_iff]
      intro k hk
      simp [hk]
    have h2 : ([points.length] : List ℕ).filter
        (fun k => decide (k ∉ List.range points.length)) = [points.length] := by
      rw [List.filter_eq_self]
      intro k hk
      simp only [List.mem_singleton] at hk
      simp [hk, List.mem_range]
    rw [h1, h2, List.nil_append]
  · by_cases hnil : points.length = 0
    · have hp : points = [] := List.length_eq_zero.mp hnil
      subst hp
      rfl
    · have hlen2 : ¬(pushPoint points p).length = 0 := by simp [pushPoint]
      have henum : (points ++ [p]).enum = points.enum ++ [(points.length, p)] := by
        rw [List.enum_append]
        rfl
      rw [drawVoronoi, if_neg hlen2, drawVoronoi, if_neg hnil]
      show (pushPoint points p).enum.map _
        = points.enum.map _ ++ [⟨points.length, p.1, p.2⟩]
      rw [pushPoint, henum, List.map_append]
      rfl

/-- C10 witness: adding `(3,4)` to the one-point store `[(1,2)]`: the existing
entry keeps index 0, the exit set is empty and exactly key 1 enters. -/
theorem C10_witness :
    (pushPoint [((1 : ℚ), 2)] (3, 4))[0]? = some ((1 : ℚ), 2) ∧
    exitKeys (dataKeys [((1 : ℚ), 2)]) (dataKeys (pushPoint [((1 : ℚ), 2)] (3, 4))) = [] ∧
    enterKeys (dataKeys [((1 : ℚ), 2)]) (dataKeys (pushPoint [((1 : ℚ), 2)] (3, 4))) = [1] := by
  have h := C10_add_point_preserves_identities rectVoronoi 800 600 [((1 : ℚ), 2)] (3, 4)
  exact ⟨(h.1 0 (by decide)).trans rfl, h.2.2.1, h.2.2.2.2.1⟩

/-! ## String helper lemmas for the export transformation -/

theorem isPrefixOf_append_self (l t : List Char) : l.isPrefixOf (l ++ t) = true := by
  induction l with
  | nil => simp [List.isPrefixOf]
  | cons a r ih => simp [List.isPrefixOf, ih]

theorem isPrefixOf_append_extend (pat : List Char) (l m : List Char)
    (h : pat.isPrefixOf l = true) : pat.isPrefixOf (l ++ m) = true := by
  induction pat generalizing l with
  | nil => simp [List.isPrefixOf]
  | cons a r ih =>
    cases l with
    | nil => simp [List.isPrefixOf] at h
    | cons b s =>
      simp only [List.isPrefixOf, Bool.and_eq_true] at h
      simp only [List.cons_append, List.isPrefixOf, Bool.and_eq_true]
      exact ⟨h.1, ih s h.2⟩

theorem containsSeq_nil_pat (l : List Char) : containsSeq [] l = true := by
  cases l with
  | nil => rfl
  | cons c r => simp [containsSeq, List.isPrefixOf]

theorem containsSeq_of_isPrefixOf (pat l : List Char) (h : pat.isPrefixOf l = true) :
    containsSeq pat l = true := by
  cases l with
  | nil =>
    cases pat with
    | nil => rfl
    | cons a r => simp [List.isPrefixOf] at h
  | cons c r => simp [containsSeq, h]

theorem containsSeq_append_left (pat pre l : List Char) (h : containsSeq pat l = true) :
    containsSeq pat (pre ++ l) = true := by
  induction pre with
  | nil => simpa using h
  | cons c t ih => simp [containsSeq, ih]

theorem containsSeq_append_extend (pat l m : List Char) (h : containsSeq pat l = true) :
    containsSeq pat (l ++ m) = true := by
  induction l with
  | nil =>
    have hp : pat = [] := by
      cases pat with
      | nil => rfl
      | cons a r => simp [containsSeq] at h
    rw [hp, List.nil_append]
    exact containsSeq_nil_pat m
  | cons c r ih =>
    rw [List.cons_append]
    simp only [containsSeq, Bool.or_eq_true] at h
    rcases h with h | h
    · have := isPrefixOf_append_extend pat (c :: r) m h
      simp only [List.cons_append] at this
      simp [containsSeq, this]
    · simp [containsSeq, ih h]

theorem containsSeq_of_scanPat (pat l : List Char) (h : scanPat pat l = true) :
    containsSeq pat l = true := by
  induction l with
  | nil => simp [scanPat] at h
  | cons c r ih =>
    rw [scanPat] at h
    by_cases hc : c = '>'
    · rw [if_pos hc] at h
      cases h
    · rw [if_neg hc] at h
      simp only [Bool.or_eq_true] at h
      rcases h with h | h
      · simp [containsSeq, containsSeq_of_isPrefixOf pat r h]
      · simp [containsSeq, ih h]

theorem containsSeq_of_drop (pat l : List Char) (n : ℕ)
    (h : containsSeq pat (l.drop n) = true) : containsSeq pat l = true := by
  have h2 := containsSeq_append_left pat (l.take n) (l.drop n) h
  rwa [List.take_append_drop] at h2

/-- After the first injection step the source still starts with `<svg` and its
root tag matches the svg-namespace regex. -/
theorem addSvgNs_establishes (s : List Char) (hs : svgTagOpen.isPrefixOf s = true) :
    svgTagOpen.isPrefixOf (addSvgNs s) = true ∧
    scanPat svgNsPat ((addSvgNs s).drop 4) = true := by
  by_cases hm : matchSvgNsRe s = true
  · rw [addSvgNs, if_pos hm]
    rw [matchSvgNsRe, Bool.and_eq_true] at hm
    exact ⟨hm.1, hm.2⟩
  · rw [addSvgNs, if_neg hm, replaceSvgOpen, if_pos hs]
    have hdrop : ((svgTagOpen ++ ' ' :: svgNsPat) ++ s.drop 4).drop 4
        = ' ' :: (svgNsPat ++ s.drop 4) := by
      rw [List.append_assoc]
      exact List.drop_left svgTagOpen _
    constructor
    · rw [List.append_assoc]
      exact isPrefixOf_append_self svgTagOpen _
    · rw [hdrop, scanPat, if_neg (by decide : ¬(' ' = '>'))]
      simp [isPrefixOf_append_self]

/-- C9: for every serialized source whose root element opens with `<svg`, the
export output begins with the XML declaration, contains the svg namespace
declaration and the quoted xlink namespace URL; each injection step leaves the
source unchanged when its presence-check regex already matches (no duplicate
declaration), and when the xlink check fails the full
`xmlns:xlink="http://www.w3.org/1999/xlink"` declaration is injected. -/
theorem C9_export_namespaces (s : List Char) (hs : svgTagOpen.isPrefixOf s = true) :
    xmlDecl.isPrefixOf (exportTransform s) = true ∧
    containsSeq svgNsPat (exportTransform s) = true ∧
    containsSeq xlinkPat (exportTransform s) = true ∧
    (matchSvgNsRe s = true → addSvgNs s = s) ∧
    (matchXlinkRe (addSvgNs s) = true → addXlinkNs (addSvgNs s) = addSvgNs s) ∧
    (matchXlinkRe (addSvgNs s) = false →
      containsSeq xlinkNsDecl (exportTransform s) = true) := by
  obtain ⟨hpre, hscan⟩ := addSvgNs_establishes s hs
  have hsvg_x : containsSeq svgNsPat (addXlinkNs (addSvgNs s)) = true := by
    by_cases hm : matchXlinkRe (addSvgNs s) = true
    · rw [addXlinkNs, if_pos hm]
      exact containsSeq_of_drop _ _ 4 (containsSeq_of_scanPat _ _ hscan)
    · rw [addXlinkNs, if_neg hm, replaceSvgOpen, if_pos hpre]
      exact containsSeq_append_left _ _ _ (containsSeq_of_scanPat _ _ hscan)
  have hxlink_x : containsSeq xlinkPat (addXlinkNs (addSvgNs s)) = true := by
    by_cases hm : matchXlinkRe (addSvgNs s) = true
    · rw [addXlinkNs, if_pos hm]
      rw [matchXlinkRe, Bool.and_eq_true] at hm
      exact containsSeq_of_drop _ _ 4 (containsSeq_of_scanPat _ _ hm.2)
    · rw [addXlinkNs, if_neg hm, replaceSvgOpen, if_pos hpre]
      have hin : containsSeq xlinkPat (svgTagOpen ++ ' ' :: xlinkNsDecl) = true := by
        decide
      exact containsSeq_append_extend _ _ _ hin
  have hxdecl : matchXlinkRe (addSvgNs s) = false →
      containsSeq xlinkNsDecl (exportTransform s) = true := by
    intro hm
    rw [exportTransform]
    apply containsSeq_append_left
    rw [addXlinkNs, if_neg (by simp [hm]), replaceSvgOpen, if_pos hpre]
    have hin : containsSeq xlinkNsDecl (svgTagOpen ++ ' ' :: xlinkNsDecl) = true := by
      decide
    exact containsSeq_append_extend _ _ _ hin
  refine ⟨isPrefixOf_append_self _ _, containsSeq_append_left _ _ _ hsvg_x,
    containsSeq_append_left _ _ _ hxlink_x, ?_, ?_, hxdecl⟩
  · intro hm
    rw [addSvgNs, if_pos hm]
  · intro hm
    rw [addXlinkNs, if_pos hm]

/-- C9 witness: exporting the bare source `<svg>`: the output begins with the
XML declaration and contains both namespace declarations. -/
theorem C9_witness :
    xmlDecl.isPrefixOf (exportTransform ('<' :: 's' :: 'v' :: 'g' :: '>' :: [])) = true ∧
    containsSeq svgNsPat (exportTransform ('<' :: 's' :: 'v' :: 'g' :: '>' :: [])) = true ∧
    containsSeq xlinkPat (exportTransform ('<' :: 's' :: 'v' :: 'g' :: '>' :: [])) = true := by
  have h := C9_export_namespaces ('<' :: 's' :: 'v' :: 'g' :: '>' :: []) (by decide)
  exact ⟨h.1, h.2.1, h.2.2.1⟩

/-- C4 (code bug): under the d3 v6 calling convention (listeners are invoked
with exactly `(event, datum)`), the mouseover handler's declared third
parameter `i` is `undefined`, so `cellAreas[i]` is `undefined` and
`.toFixed(2)` throws a `TypeError` — for every area list and every hovered
cell the tooltip never receives the hovered region's area. -/
theorem C4_mouseover_always_throws (areas : List ℚ) (event datum : JSVal) :
    mouseoverShownArea areas event datum
      = Except.error "TypeError: cannot read toFixed of undefined" := rfl

end VoronoiCells
